import Mathlib

/-!
Verification of the `luna` CLI (source: `src/luna_cli/main.py`), a tool that
mirrors a local directory tree into an S3 bucket, skipping files whose MD5
content hash matches the `file-md5` metadata stored on the remote object.

The development shallowly embeds the relevant Python functions:

* Python string helpers (`str.strip`, `str.lstrip`, `str.lower`,
  `str.endswith`) over `String` / `List Char`;
* POSIX path functions (`os.path.join`, `os.path.dirname`,
  `os.path.relpath`) over `List Char`, valid on normalized absolute inputs
  (where `os.path.abspath` is the identity);
* `get_size`, `checkfolder` (size listing with a stable descending sort,
  mirroring Python `list.sort(key=..., reverse=True)`, which is stable);
* the `upload` command: configuration check, remote snapshot
  (`list_s3_objects`), the per-file skip/upload decision of the main loop,
  and the store/metadata updates of `upload_file`.  The MD5 function itself
  (`hashlib`, an external library) is a parameter `md5 : List Nat → String`
  mapping file bytes to the hex digest; the model only relies on it being a
  function of the content.
* `get_transfer_config`, together with the boto3 multipart behaviour
  (external library) modelled from the spec.

Effects (echoes, the remote listing, the walk, fingerprint computations,
upload network calls, skips) are recorded as an event trace, and exceptions
as an `Option String` error outcome: Python exceptions propagate, so a run
ends at the first recorded error.
-/

namespace Luna

/-! ### Python string primitives -/

/-- Python `s.strip(c)` for a single strip character `c`: removes all leading
and trailing occurrences of `c`. -/
def pyStripChar (c : Char) (l : List Char) : List Char :=
  ((l.dropWhile (fun x => x = c)).reverse.dropWhile (fun x => x = c)).reverse

/-- `s.strip('"')` as used on the stored fingerprint in `upload`
(main.py line 147). -/
def stripQuotes (s : String) : String :=
  String.mk (pyStripChar '\"' s.data)

/-- Python `str.lower` (ASCII; the repository only compares ASCII
extensions). -/
def lowerS (s : String) : String :=
  String.mk (s.data.map Char.toLower)

/-- Python `str.endswith`: suffix test. -/
def endsWithS (s suffix : String) : Bool :=
  suffix.data.isSuffixOf s.data

/-! ### Extension filter (`--ignore-ext`) -/

/-- `'.' + ext.lstrip('.').lower()` (main.py lines 87 and 129): one leading
dot is prepended after stripping all leading dots, and the rest is
lowercased. -/
def normalizeExt (e : String) : String :=
  String.mk ('.' :: (e.data.dropWhile (fun c => c = '.')).map Char.toLower)

/-- The normalized ignore set.  Python builds a `set`; only `any`-membership
is ever used, which is order- and duplicate-insensitive, so a list is an
adequate model. -/
def normalizeIgnore (raw : List String) : List String :=
  raw.map normalizeExt

/-- `any(f.lower().endswith(ext) for ext in ignore_ext)` applied to a file
NAME — used by `get_size` (line 37) and both loops of `upload`
(lines 132 and 141). -/
def nameExcluded (ig : List String) (name : String) : Bool :=
  ig.any (fun ext => endsWithS (lowerS name) ext)

/-- `any(full_path.lower().endswith(ext) for ext in ignore_ext)` applied to
the FULL PATH — used by `checkfolder` for top-level files (line 95). -/
def pathExcludedS (ig : List String) (path : String) : Bool :=
  ig.any (fun ext => endsWithS (lowerS path) ext)

/-! ### Sync-engine model (`upload`, `list_s3_objects`, `upload_file`)

The remote store maps keys to the optional `file-md5` metadata value
(`list_s3_objects` returns `response.get('Metadata').get('file-md5', None)`,
so an object uploaded without that metadata maps to `None`).  A local file
carries its name (for the extension filter), its computed S3 key (the path
computation is modelled separately, see `s3KeyOf`), its byte content, and
two environment flags describing whether reading the file
(`open`/`f.read` in `get_md5`) or uploading it (`transfer.upload_file`)
would raise. -/

/-- Remote state / snapshot: association list from key to the optional
stored `file-md5` metadata. -/
abbrev Store := List (String × Option String)

/-- Dictionary lookup, `s3_objects[key]` / `key in s3_objects`. -/
def lookupStore : Store → String → Option (Option String)
  | [], _ => none
  | (k, v) :: rest, q => if q = k then some v else lookupStore rest q

/-- Overwrite-by-key upload semantics: the newest entry shadows older
ones (`lookupStore` sees the latest value for the key). -/
def storePut (s : Store) (k : String) (v : Option String) : Store :=
  (k, v) :: s

/-- Observable steps of a run of `upload`. -/
inductive SyncEvent where
  /-- `click.echo msg`. -/
  | echo (msg : String)
  /-- the `list_s3_objects` network enumeration (line 125). -/
  | listObjects
  /-- the `os.walk` filesystem traversal (lines 127 and 139). -/
  | walk
  /-- `get_md5` succeeded for the file with this key (line 146). -/
  | fingerprint (key : String)
  /-- a network upload call for this key was issued (line 155). -/
  | uploadCall (key : String)
  /-- the file was skipped as unchanged (line 149). -/
  | skip (key : String)
  deriving DecidableEq, Repr

/-- A local file as seen by the upload loop. -/
structure LocalFile where
  /-- the bare file name (filter input). -/
  name : String
  /-- the computed S3 key (`relative_path.replace(os.sep, '/')`). -/
  key : String
  /-- file bytes. -/
  content : List Nat
  /-- reading the file in `get_md5` raises `IOError`. -/
  readErr : Bool
  /-- `transfer.upload_file` raises for this file. -/
  upErr : Bool
  deriving DecidableEq, Repr

/-- Outcome of (part of) a run: trace of events, final remote state, and
the exception that aborted it, if any. -/
structure SyncResult where
  events : List SyncEvent
  store : Store
  err : Option String
  deriving DecidableEq, Repr

/-- One non-excluded file of the main loop body (main.py lines 143-155):

    local_md5 = get_md5(full_path)
    if s3_key in s3_objects and s3_objects[s3_key].strip('"') == local_md5:
        bar.update(...); continue
    extra_args = {'StorageClass': 'ONEZONE_IA', 'Metadata': {'file-md5': local_md5}}
    upload_file(transfer, full_path, bucket_name, s3_key, extra_args, bar)

`get_md5` is computed unconditionally; a `None` stored fingerprint makes
`.strip('"')` raise `AttributeError`; there is no `try`/`except`, so any
error becomes the result error.  A successful upload writes the
`file-md5` metadata to the remote store. -/
def processFile (md5 : List Nat → String) (snap store : Store) (f : LocalFile) :
    SyncResult :=
  if f.readErr then ⟨[], store, some "IOError"⟩
  else
    let localMd5 := md5 f.content
    match lookupStore snap f.key with
    | some none =>
      ⟨[SyncEvent.fingerprint f.key], store, some "AttributeError"⟩
    | some (some v) =>
      if stripQuotes v = localMd5 then
        ⟨[SyncEvent.fingerprint f.key, SyncEvent.skip f.key], store, none⟩
      else if f.upErr then
        ⟨[SyncEvent.fingerprint f.key, SyncEvent.uploadCall f.key], store,
          some "UploadError"⟩
      else
        ⟨[SyncEvent.fingerprint f.key, SyncEvent.uploadCall f.key],
          storePut store f.key (some localMd5), none⟩
    | none =>
      if f.upErr then
        ⟨[SyncEvent.fingerprint f.key, SyncEvent.uploadCall f.key], store,
          some "UploadError"⟩
      else
        ⟨[SyncEvent.fingerprint f.key, SyncEvent.uploadCall f.key],
          storePut store f.key (some localMd5), none⟩

/-- The main loop of `upload` (lines 139-155) over the walked files, with
the snapshot `snap` fixed at its start.  Excluded files are passed over
(line 141); otherwise the body `processFile` runs, and — since the body has
no exception handler — the first error ends the loop. -/
def uploadLoop (md5 : List Nat → String) (ig : List String) (snap : Store) :
    Store → List LocalFile → SyncResult
  | store, [] => ⟨[], store, none⟩
  | store, f :: rest =>
    if nameExcluded ig f.name then uploadLoop md5 ig snap store rest
    else
      let r := processFile md5 snap store f
      match r.err with
      | some e => ⟨r.events, r.store, some e⟩
      | none =>
        let r2 := uploadLoop md5 ig snap r.store rest
        ⟨r.events ++ r2.events, r2.store, r2.err⟩

/-- Python truthiness of the configured bucket name
(`if not bucket_name`): `None` and the empty string are falsy. -/
def pyTruthy : Option String → Bool
  | none => false
  | some s => decide (s ≠ "")

/-- The `upload` command (lines 116-155).  `config` is what `read_config`
returns (the shelve value of `bucket_name`, `None` when absent).  When it
is falsy, the command echoes a message and returns normally — before the
walk, the remote listing, and any fingerprinting or upload.  Otherwise it
takes the snapshot (`list_s3_objects`, one `listObjects` event), walks the
tree (`walk` event; the preliminary sizing loop at lines 130-136 only feeds
the progress bar and is not modelled further), and runs the main loop. -/
def uploadCmd (md5 : List Nat → String) (config : Option String)
    (igRaw : List String) (store : Store) (files : List LocalFile) :
    SyncResult :=
  if pyTruthy config then
    let r := uploadLoop md5 (normalizeIgnore igRaw) store store files
    ⟨SyncEvent.listObjects :: SyncEvent.walk :: r.events, r.store, r.err⟩
  else
    ⟨[SyncEvent.echo "No configuration found. Please run 'luna configure'."],
      store, none⟩

/-! ### Transfer configuration (`get_transfer_config`) -/

/-- boto3 `TransferConfig` fields, in the order they are passed. -/
structure TransferConfig where
  multipart_threshold : Nat
  max_concurrency : Nat
  multipart_chunksize : Nat
  use_threads : Bool
  deriving DecidableEq, Repr

/-- `get_transfer_config` (main.py lines 65-72), values exactly as written:

    TransferConfig(
        multipart_threshold=1024 * 25,       # comment claims 25 MB
        max_concurrency=10,
        multipart_chunksize=1024 * 25 * 1024,  # 25 MB
        use_threads=True)
-/
def get_transfer_config : TransferConfig :=
  ⟨1024 * 25, 10, 1024 * 25 * 1024, true⟩

/-- Modelled from the spec: the transfer executor itself is boto3
`S3Transfer`, external to the repository.  Per the spec, "Files at or above
`multipartThresholdBytes` are uploaded in parts of `multipartChunkBytes`"
and "A file at exactly `multipartThresholdBytes` is treated as large
(boundary inclusive); one byte below is treated as small". -/
def isMultipart (cfg : TransferConfig) (size : Nat) : Bool :=
  cfg.multipart_threshold ≤ size

/-- Modelled from the spec: number of multipart chunks for a large file:
parts of `multipart_chunksize` bytes, i.e. `⌈size / chunk⌉`. -/
def multipartParts (cfg : TransferConfig) (size : Nat) : Nat :=
  (size + cfg.multipart_chunksize - 1) / cfg.multipart_chunksize

/-! ### POSIX paths (`os.path` on a POSIX system, `os.sep = '/'`)

Paths are manipulated as `List Char`.  `os.path.relpath` calls
`os.path.abspath` on both arguments; the model is stated for inputs that
are already normalized absolute paths (leading `'/'`, components free of
`'/'` and different from `'.'` and `'..'`, possibly a trailing `'/'`),
where `abspath` only removes a trailing slash — which the
split-and-filter of `relpath` ignores anyway. -/

/-- Split a character list at every occurrence of `c`
(Python `str.split(sep)` semantics: `n` separators produce `n+1` chunks,
empty chunks included). -/
def splitOnChar (c : Char) : List Char → List (List Char)
  | [] => [[]]
  | x :: xs =>
    if x = c then [] :: splitOnChar c xs
    else (x :: (splitOnChar c xs).headI) :: (splitOnChar c xs).tail

/-- The nonempty components of a path:
`[x for x in p.split('/') if x]` as in `posixpath.relpath`. -/
def partsL (p : List Char) : List (List Char) :=
  (splitOnChar '/' p).filter (fun x => x ≠ [])

/-- `posixpath.join(a, b)` (two arguments):
if `b` is absolute it wins; if `a` is empty or ends in the separator the
pieces concatenate; otherwise a separator is inserted. -/
def pathJoinL (a b : List Char) : List Char :=
  if b.head? = some '/' then b
  else if a = [] ∨ a.getLast? = some '/' then a ++ b
  else a ++ '/' :: b

/-- `String`-level `os.path.join` for the `checkfolder` model. -/
def pathJoinS (a b : String) : String :=
  String.mk (pathJoinL a.data b.data)

/-- Python `p.rstrip('/')`. -/
def rstripSlash (p : List Char) : List Char :=
  (p.reverse.dropWhile (fun x => x = '/')).reverse

/-- The `head = p[:i+1]` step of `posixpath.dirname`: everything up to and
including the final `'/'` (empty when there is none). -/
def dirnameHead (p : List Char) : List Char :=
  (p.reverse.dropWhile (fun x => x ≠ '/')).reverse

/-- `posixpath.dirname(p)`: everything up to (and, for the root, including)
the final `'/'`; trailing slashes are stripped unless the result is all
slashes:

    i = p.rfind('/') + 1
    head = p[:i]
    if head and head != '/' * len(head):
        head = head.rstrip('/')
    return head
-/
def dirnameL (p : List Char) : List Char :=
  if dirnameHead p ≠ [] ∧ (dirnameHead p).any (fun x => x ≠ '/') then
    rstripSlash (dirnameHead p)
  else dirnameHead p

/-- Length of the longest common prefix of two component lists
(`genericpath.commonprefix`). -/
def commonPrefixLen : List (List Char) → List (List Char) → Nat
  | a :: as, b :: bs => if a = b then 1 + commonPrefixLen as bs else 0
  | _, _ => 0

/-- `posixpath.join(*components)` for nonempty slash-free components:
they get interleaved with single separators. -/
def intercalateSlash : List (List Char) → List Char
  | [] => []
  | [c] => c
  | c :: d :: rest => c ++ '/' :: intercalateSlash (d :: rest)

/-- `posixpath.relpath(path, start)` for normalized absolute inputs:

    start_list = [x for x in abspath(start).split(sep) if x]
    path_list  = [x for x in abspath(path).split(sep) if x]
    i = len(commonprefix([start_list, path_list]))
    rel_list = ['..'] * (len(start_list) - i) + path_list[i:]
    return curdir if not rel_list else join(*rel_list)
-/
def relpathRel (path start : List Char) : List (List Char) :=
  List.replicate
      ((partsL start).length - commonPrefixLen (partsL start) (partsL path))
      ['.', '.'] ++
    (partsL path).drop (commonPrefixLen (partsL start) (partsL path))

/-- The final branch of `posixpath.relpath`: `curdir` for an empty relative
component list, otherwise the components joined by single separators. -/
def relpathL (path start : List Char) : List Char :=
  if relpathRel path start = [] then ['.']
  else intercalateSlash (relpathRel path start)

/-- Python `str.replace` for single characters. -/
def replaceChar (a b : Char) (p : List Char) : List Char :=
  p.map (fun c => if c = a then b else c)

/-- The S3 key of a walked file (main.py lines 144-145):

    relative_path = os.path.relpath(full_path, start=os.path.dirname(folder_path))
    s3_key = relative_path.replace(os.sep, '/')

On POSIX `os.sep` is `'/'`, so the replacement is the identity; it is kept
to mirror the source. -/
def s3KeyOf (folderPath fullPath : List Char) : List Char :=
  replaceChar '/' '/' (relpathL fullPath (dirnameL folderPath))

/-- The full path `os.walk`/`os.path.join` produce for a file reached from
`top` through the successive components `comps` (each subdirectory name,
then the file name): `os.walk` joins one component per level and the loop
body joins the file name (line 143). -/
def walkFullPath (top : List Char) (comps : List (List Char)) : List Char :=
  comps.foldl pathJoinL top

/-- A clean path component: nonempty, free of the separator, and not one of
the special entries `.` and `..` (so that `os.path.abspath`, i.e.
`normpath`, leaves the path alone).  `os.walk`/`os.listdir` only produce
such names. -/
def cleanComp (c : List Char) : Prop :=
  c ≠ [] ∧ '/' ∉ c ∧ c ≠ ['.'] ∧ c ≠ ['.', '.']

instance (c : List Char) : Decidable (cleanComp c) := by
  unfold cleanComp; infer_instance

/-- The normalized absolute path with the given components. -/
def absPathOf (comps : List (List Char)) : List Char :=
  '/' :: intercalateSlash comps

/-! ### `get_size` and `checkfolder` -/

/-- A filesystem subtree: named files with sizes, and named directories. -/
inductive FSNode where
  | file (name : String) (size : Nat)
  | dir (name : String) (children : List FSNode)
  deriving Repr

mutual

/-- `get_size(start_path, ignore_ext)` (main.py lines 32-42) on a node of
the modelled tree: `os.walk` visits every file at every depth; a file whose
lowercased NAME ends with a filter extension is skipped, any other file
contributes its size.  (The `os.path.exists` guard only skips broken
symlinks, which the tree model does not contain.) -/
def get_size (ig : List String) : FSNode → Nat
  | FSNode.file n s => if nameExcluded ig n then 0 else s
  | FSNode.dir _ cs => sizeChildren ig cs

/-- Sum of `get_size` over a directory's children. -/
def sizeChildren (ig : List String) : List FSNode → Nat
  | [] => 0
  | c :: cs => get_size ig c + sizeChildren ig cs

end

/-- One iteration of the `checkfolder` sizing loop (lines 90-99) for a
top-level entry: a directory is sized by `get_size`; a file is dropped when
the lowercased FULL PATH (`os.path.join(folder_path, entry)`) ends with a
filter extension (line 95), and otherwise contributes its own size. -/
def entryRow (ig : List String) (folderPath : String) :
    FSNode → Option (String × Nat)
  | FSNode.dir n cs => some (n, get_size ig (FSNode.dir n cs))
  | FSNode.file n s =>
    if pathExcludedS ig (pathJoinS folderPath n) then none else some (n, s)

/-- Insert into a list sorted by size descending, placing the new element
before the first entry whose size is not larger — the unique stable
behaviour. -/
def insertDesc (x : String × Nat) : List (String × Nat) → List (String × Nat)
  | [] => [x]
  | y :: ys => if y.2 ≤ x.2 then x :: y :: ys else y :: insertDesc x ys

/-- `sizes.sort(key=lambda x: x[1], reverse=True)` (line 102): Python's
sort is stable, and with `reverse=True` equal keys still keep their
original order.  A stable sort by a fixed key is extensionally unique, so
this stable insertion sort is the same function. -/
def sortDesc : List (String × Nat) → List (String × Nat)
  | [] => []
  | x :: xs => insertDesc x (sortDesc xs)

/-- The `(name, size)` rows `checkfolder` prints (lines 84-110), in order:
the entries are visited in `os.listdir` discovery order, sized or filtered
per `entryRow`, then sorted by size descending. -/
def checkfolderRows (igRaw : List String) (folderPath : String)
    (entries : List FSNode) : List (String × Nat) :=
  sortDesc (entries.filterMap (entryRow (normalizeIgnore igRaw) folderPath))

/-! ### Concrete sample data for the witnesses -/

/-- A sample content-hash function for concrete runs: a constant hex
digest (the model never needs injectivity, only functionality). -/
def md5c : List Nat → String :=
  fun _ => "0cc175b9c0f1b6a831c399e269772661"

/-- Sample file `project/a.txt`, readable, uploadable. -/
def fileA : LocalFile :=
  ⟨"a.txt", "project/a.txt", [10, 20], false, false⟩

/-- Sample file `project/b.txt`, readable, uploadable. -/
def fileB : LocalFile :=
  ⟨"b.txt", "project/b.txt", [30], false, false⟩

/-- Sample unreadable file `project/bad.txt` (`get_md5` raises). -/
def fileBad : LocalFile :=
  ⟨"bad.txt", "project/bad.txt", [7], true, false⟩

/-! ## Helper lemmas about the sync loop -/

/-- Unfolding: an excluded file is passed over. -/
theorem uploadLoop_cons_excluded (md5 : List Nat → String) (ig : List String)
    (snap store : Store) (g : LocalFile) (rest : List LocalFile)
    (hx : nameExcluded ig g.name = true) :
    uploadLoop md5 ig snap store (g :: rest) = uploadLoop md5 ig snap store rest := by
  simp [uploadLoop, hx]

/-- Unfolding: a failing file ends the loop with its partial outcome. -/
theorem uploadLoop_cons_err (md5 : List Nat → String) (ig : List String)
    (snap store : Store) (g : LocalFile) (rest : List LocalFile) (e : String)
    (hx : nameExcluded ig g.name = false)
    (he : (processFile md5 snap store g).err = some e) :
    uploadLoop md5 ig snap store (g :: rest) =
      ⟨(processFile md5 snap store g).events,
        (processFile md5 snap store g).store, some e⟩ := by
  simp [uploadLoop, hx, he]

/-- Unfolding: after a successful body the loop continues on the updated
store. -/
theorem uploadLoop_cons_ok (md5 : List Nat → String) (ig : List String)
    (snap store : Store) (g : LocalFile) (rest : List LocalFile)
    (hx : nameExcluded ig g.name = false)
    (he : (processFile md5 snap store g).err = none) :
    uploadLoop md5 ig snap store (g :: rest) =
      ⟨(processFile md5 snap store g).events ++
          (uploadLoop md5 ig snap (processFile md5 snap store g).store rest).events,
        (uploadLoop md5 ig snap (processFile md5 snap store g).store rest).store,
        (uploadLoop md5 ig snap (processFile md5 snap store g).store rest).err⟩ := by
  simp [uploadLoop, hx, he]

/-- Splitting a run after an error-free prefix: the suffix continues from
the prefix's store, and events concatenate. -/
theorem uploadLoop_append_of_ok (md5 : List Nat → String) (ig : List String)
    (snap : Store) :
    ∀ (pre : List LocalFile) (store : Store),
      (uploadLoop md5 ig snap store pre).err = none →
      ∀ rest, uploadLoop md5 ig snap store (pre ++ rest) =
        ⟨(uploadLoop md5 ig snap store pre).events ++
            (uploadLoop md5 ig snap (uploadLoop md5 ig snap store pre).store
              rest).events,
          (uploadLoop md5 ig snap (uploadLoop md5 ig snap store pre).store
            rest).store,
          (uploadLoop md5 ig snap (uploadLoop md5 ig snap store pre).store
            rest).err⟩
  | [], store, _, rest => rfl
  | g :: pre, store, h, rest => by
    by_cases hx : nameExcluded ig g.name
    · rw [List.cons_append, uploadLoop_cons_excluded md5 ig snap store g
        (pre ++ rest) hx, uploadLoop_cons_excluded md5 ig snap store g pre hx]
      rw [uploadLoop_cons_excluded md5 ig snap store g pre hx] at h
      exact uploadLoop_append_of_ok md5 ig snap pre store h rest
    · have hx' : nameExcluded ig g.name = false := Bool.not_eq_true _ ▸ hx
      rcases he : (processFile md5 snap store g).err with - | e
      · rw [List.cons_append,
          uploadLoop_cons_ok md5 ig snap store g (pre ++ rest) hx' he,
          uploadLoop_cons_ok md5 ig snap store g pre hx' he]
        rw [uploadLoop_cons_ok md5 ig snap store g pre hx' he] at h
        rw [uploadLoop_append_of_ok md5 ig snap pre
          (processFile md5 snap store g).store h rest]
        simp [List.append_assoc]
      · exfalso
        rw [uploadLoop_cons_err md5 ig snap store g pre e hx' he] at h
        cases h

/-- Every event `processFile` emits mentions the processed file's key. -/
theorem processFile_events_key (md5 : List Nat → String) (snap store : Store)
    (g : LocalFile) :
    ∀ e ∈ (processFile md5 snap store g).events,
      e = SyncEvent.fingerprint g.key ∨ e = SyncEvent.uploadCall g.key ∨
        e = SyncEvent.skip g.key := by
  unfold processFile
  by_cases hr : g.readErr <;> simp [hr]
  rcases lookupStore snap g.key with - | - | v <;> simp
  · by_cases hu : g.upErr <;> simp [hu]
  · by_cases hm : stripQuotes v = md5 g.content <;>
      by_cases hu : g.upErr <;> simp [hm, hu]

/-- A file that is unreadable, or whose snapshot fingerprint matches, never
triggers an upload call. -/
theorem processFile_no_upload (md5 : List Nat → String) (snap store : Store)
    (g : LocalFile)
    (h : g.readErr = true ∨
      ∃ s, lookupStore snap g.key = some (some s) ∧
        stripQuotes s = md5 g.content) :
    ∀ k, SyncEvent.uploadCall k ∉ (processFile md5 snap store g).events := by
  intro k
  rcases h with hr | ⟨s, hs, hm⟩
  · simp [processFile, hr]
  · by_cases hr : g.readErr
    · simp [processFile, hr]
    · simp [processFile, hr, hs, hm]

/-- `processFile` only ever writes the processed file's own key. -/
theorem lookupStore_processFile_ne (md5 : List Nat → String)
    (snap store : Store) (g : LocalFile) (k : String) (hk : g.key ≠ k) :
    lookupStore (processFile md5 snap store g).store k = lookupStore store k := by
  unfold processFile
  by_cases hr : g.readErr <;> simp [hr]
  rcases lookupStore snap g.key with - | - | v <;> simp
  · by_cases hu : g.upErr <;> simp [hu, storePut, lookupStore, Ne.symm hk]
  · by_cases hm : stripQuotes v = md5 g.content <;>
      by_cases hu : g.upErr <;> simp [hm, hu, storePut, lookupStore, Ne.symm hk]

/-- The loop only writes keys of the files it processes. -/
theorem uploadLoop_store_stable (md5 : List Nat → String) (ig : List String)
    (snap : Store) (k : String) :
    ∀ (files : List LocalFile) (store : Store),
      (∀ g ∈ files, g.key ≠ k) →
      lookupStore (uploadLoop md5 ig snap store files).store k =
        lookupStore store k
  | [], store, _ => rfl
  | g :: rest, store, h => by
    have hg : g.key ≠ k := h g (List.mem_cons_self g rest)
    have hrest : ∀ x ∈ rest, x.key ≠ k :=
      fun x hx => h x (List.mem_cons_of_mem g hx)
    by_cases hx : nameExcluded ig g.name
    · rw [uploadLoop_cons_excluded md5 ig snap store g rest hx]
      exact uploadLoop_store_stable md5 ig snap k rest store hrest
    · rcases he : (processFile md5 snap store g).err with - | e
      · rw [uploadLoop_cons_ok md5 ig snap store g rest
          (Bool.not_eq_true _ ▸ hx) he]
        rw [uploadLoop_store_stable md5 ig snap k rest
          (processFile md5 snap store g).store hrest]
        exact lookupStore_processFile_ne md5 snap store g k hg
      · rw [uploadLoop_cons_err md5 ig snap store g rest e
          (Bool.not_eq_true _ ▸ hx) he]
        exact lookupStore_processFile_ne md5 snap store g k hg

/-- In an error-free run every non-excluded file was readable. -/
theorem uploadLoop_ok_readable (md5 : List Nat → String) (ig : List String)
    (snap : Store) :
    ∀ (files : List LocalFile) (store : Store),
      (uploadLoop md5 ig snap store files).err = none →
      ∀ f ∈ files, nameExcluded ig f.name = false → f.readErr = false
  | [], _, _, f, hf, _ => absurd hf (List.not_mem_nil f)
  | g :: rest, store, h, f, hf, hfx => by
    by_cases hx : nameExcluded ig g.name
    · rcases List.mem_cons.mp hf with rfl | hmem
      · exact absurd hx (by simp [hfx])
      · rw [uploadLoop_cons_excluded md5 ig snap store g rest hx] at h
        exact uploadLoop_ok_readable md5 ig snap rest store h f hmem hfx
    · have hx' : nameExcluded ig g.name = false := Bool.not_eq_true _ ▸ hx
      rcases he : (processFile md5 snap store g).err with - | e
      · rcases List.mem_cons.mp hf with rfl | hmem
        · cases hb : f.readErr
          · rfl
          · exfalso
            have : (processFile md5 snap store f).err = some "IOError" := by
              simp [processFile, hb]
            rw [this] at he
            cases he
        · rw [uploadLoop_cons_ok md5 ig snap store g rest hx' he] at h
          exact uploadLoop_ok_readable md5 ig snap rest _ h f hmem hfx
      · exfalso
        rw [uploadLoop_cons_err md5 ig snap store g rest e hx' he] at h
        cases h

/-- After an error-free run, every non-excluded file's key maps (in the
resulting remote state) to a stored fingerprint that, quotes stripped,
equals the file's digest — either because the file was freshly uploaded
with the digest as metadata, or because it was skipped against an already
matching snapshot entry. -/
theorem uploadLoop_ok_store (md5 : List Nat → String) (ig : List String)
    (snap : Store) (hmd5 : ∀ c, stripQuotes (md5 c) = md5 c) :
    ∀ (files : List LocalFile) (store : Store),
      (uploadLoop md5 ig snap store files).err = none →
      (files.map LocalFile.key).Nodup →
      (∀ g ∈ files, nameExcluded ig g.name = false →
        lookupStore store g.key = lookupStore snap g.key) →
      ∀ f ∈ files, nameExcluded ig f.name = false →
        ∃ s, lookupStore (uploadLoop md5 ig snap store files).store f.key =
            some (some s) ∧ stripQuotes s = md5 f.content
  | [], _, _, _, _, f, hf, _ => absurd hf (List.not_mem_nil f)
  | g :: rest, store, h, hnd, hinit, f, hf, hfx => by
    have hndr : (rest.map LocalFile.key).Nodup := (List.nodup_cons.mp hnd).2
    have hgk : g.key ∉ rest.map LocalFile.key := (List.nodup_cons.mp hnd).1
    by_cases hx : nameExcluded ig g.name
    · rcases List.mem_cons.mp hf with rfl | hmem
      · exact absurd hx (by simp [hfx])
      · rw [uploadLoop_cons_excluded md5 ig snap store g rest hx] at h ⊢
        exact uploadLoop_ok_store md5 ig snap hmd5 rest store h hndr
          (fun x hx2 hx3 => hinit x (List.mem_cons_of_mem g hx2) hx3) f hmem hfx
    · have hx' : nameExcluded ig g.name = false := Bool.not_eq_true _ ▸ hx
      rcases he : (processFile md5 snap store g).err with - | e
      · rw [uploadLoop_cons_ok md5 ig snap store g rest hx' he] at h ⊢
        have hgr : g.readErr = false := by
          cases hb : g.readErr
          · rfl
          · exfalso
            have : (processFile md5 snap store g).err = some "IOError" := by
              simp [processFile, hb]
            rw [this] at he
            cases he
        have hinit2 : ∀ x ∈ rest, nameExcluded ig x.name = false →
            lookupStore (processFile md5 snap store g).store x.key =
              lookupStore snap x.key := by
          intro x hx2 hx3
          have hne : g.key ≠ x.key := by
            intro hcontra
            exact hgk (hcontra ▸ List.mem_map_of_mem LocalFile.key hx2)
          rw [lookupStore_processFile_ne md5 snap store g x.key hne]
          exact hinit x (List.mem_cons_of_mem g hx2) hx3
        rcases List.mem_cons.mp hf with rfl | hmem
        · -- the head file itself: skip or fresh upload, then stability
          have hfk : ∀ x ∈ rest, x.key ≠ f.key := by
            intro x hx2 hcontra
            exact hgk (hcontra ▸ List.mem_map_of_mem LocalFile.key hx2)
          show ∃ s, lookupStore
              (uploadLoop md5 ig snap (processFile md5 snap store f).store rest).store
              f.key = some (some s) ∧ stripQuotes s = md5 f.content
          rw [uploadLoop_store_stable md5 ig snap f.key rest
            (processFile md5 snap store f).store hfk]
          rcases hs : lookupStore snap f.key with - | - | v
          · -- absent from the snapshot: a fresh upload must have succeeded
            have hup : f.upErr = false := by
              cases hb : f.upErr
              · rfl
              · exfalso
                have : (processFile md5 snap store f).err = some "UploadError" := by
                  simp [processFile, hgr, hs, hb]
                rw [this] at he
                cases he
            have hst : (processFile md5 snap store f).store =
                storePut store f.key (some (md5 f.content)) := by
              simp [processFile, hgr, hs, hup]
            rw [hst]
            exact ⟨md5 f.content, by simp [storePut, lookupStore], hmd5 f.content⟩
          · -- stored metadata is None: AttributeError, contradicting success
            exfalso
            have : (processFile md5 snap store f).err = some "AttributeError" := by
              simp [processFile, hgr, hs]
            rw [this] at he
            cases he
          · by_cases hm : stripQuotes v = md5 f.content
            · -- matching fingerprint: skipped, the snapshot entry survives
              have hst : (processFile md5 snap store f).store = store := by
                simp [processFile, hgr, hs, hm]
              rw [hst, hinit f (List.mem_cons_self f rest) hfx, hs]
              exact ⟨v, rfl, hm⟩
            · -- differing fingerprint: a fresh upload must have succeeded
              have hup : f.upErr = false := by
                cases hb : f.upErr
                · rfl
                · exfalso
                  have : (processFile md5 snap store f).err =
                      some "UploadError" := by
                    simp [processFile, hgr, hs, hm, hb]
                  rw [this] at he
                  cases he
              have hst : (processFile md5 snap store f).store =
                  storePut store f.key (some (md5 f.content)) := by
                simp [processFile, hgr, hs, hm, hup]
              rw [hst]
              exact ⟨md5 f.content, by simp [storePut, lookupStore], hmd5 f.content⟩
        · exact uploadLoop_ok_store md5 ig snap hmd5 rest
            (processFile md5 snap store g).store h hndr hinit2 f hmem hfx
      · exfalso
        rw [uploadLoop_cons_err md5 ig snap store g rest e hx' he] at h
        cases h

/-- If every file carrying key `k` is excluded, unreadable, or matches the
snapshot, the run issues no upload call for `k`. -/
theorem uploadLoop_no_upload (md5 : List Nat → String) (ig : List String)
    (snap : Store) (k : String) :
    ∀ (files : List LocalFile) (store : Store),
      (∀ g ∈ files, g.key = k →
        nameExcluded ig g.name = true ∨ g.readErr = true ∨
          ∃ s, lookupStore snap k = some (some s) ∧
            stripQuotes s = md5 g.content) →
      SyncEvent.uploadCall k ∉ (uploadLoop md5 ig snap store files).events
  | [], store, _ => by simp [uploadLoop]
  | g :: rest, store, h => by
    have hrest : ∀ x ∈ rest, x.key = k →
        nameExcluded ig x.name = true ∨ x.readErr = true ∨
          ∃ s, lookupStore snap k = some (some s) ∧
            stripQuotes s = md5 x.content :=
      fun x hx => h x (List.mem_cons_of_mem g hx)
    by_cases hx : nameExcluded ig g.name
    · rw [uploadLoop_cons_excluded md5 ig snap store g rest hx]
      exact uploadLoop_no_upload md5 ig snap k rest store hrest
    · have hx' : nameExcluded ig g.name = false := Bool.not_eq_true _ ▸ hx
      have hme : SyncEvent.uploadCall k ∉ (processFile md5 snap store g).events := by
        by_cases hgk : g.key = k
        · rcases h g (List.mem_cons_self g rest) hgk with hexc | hother
          · rw [hx'] at hexc
            cases hexc
          · subst hgk
            exact processFile_no_upload md5 snap store g hother g.key
        · intro hmem
          rcases processFile_events_key md5 snap store g _ hmem with h1 | h1 | h1
          · exact SyncEvent.noConfusion h1
          · exact hgk (SyncEvent.uploadCall.inj h1).symm
          · exact SyncEvent.noConfusion h1
      rcases he : (processFile md5 snap store g).err with - | e
      · rw [uploadLoop_cons_ok md5 ig snap store g rest hx' he]
        simp only [List.mem_append]
        intro hc
        rcases hc with hc | hc
        · exact hme hc
        · exact uploadLoop_no_upload md5 ig snap k rest
            (processFile md5 snap store g).store hrest hc
      · rw [uploadLoop_cons_err md5 ig snap store g rest e hx' he]
        exact hme

/-! ## Helper lemmas about the stable descending sort -/

/-- Membership in an insertion. -/
theorem mem_insertDesc (x a : String × Nat) :
    ∀ l : List (String × Nat), a ∈ insertDesc x l ↔ a = x ∨ a ∈ l
  | [] => by simp [insertDesc]
  | y :: ys => by
    by_cases h : y.2 ≤ x.2
    · simp [insertDesc, h, List.mem_cons]
    · simp only [insertDesc, h, if_false, List.mem_cons, mem_insertDesc x a ys]
      tauto

/-- Inserting preserves descending sortedness. -/
theorem sorted_insertDesc (x : String × Nat) :
    ∀ l : List (String × Nat),
      List.Sorted (fun a b : String × Nat => b.2 ≤ a.2) l →
      List.Sorted (fun a b : String × Nat => b.2 ≤ a.2) (insertDesc x l)
  | [], _ => List.sorted_singleton x
  | y :: ys, hs => by
    rcases List.pairwise_cons.mp hs with ⟨hy, hys⟩
    by_cases h : y.2 ≤ x.2
    · simp only [insertDesc, h, if_true]
      refine List.pairwise_cons.mpr ⟨?_, hs⟩
      intro z hz
      rcases List.mem_cons.mp hz with rfl | hzm
      · exact h
      · exact Nat.le_trans (hy z hzm) h
    · simp only [insertDesc, h, if_false]
      refine List.pairwise_cons.mpr ⟨?_, sorted_insertDesc x ys hys⟩
      intro z hz
      rcases (mem_insertDesc x z ys).mp hz with rfl | hzm
      · exact Nat.le_of_not_le h
      · exact hy z hzm

/-- The sort output is descending in the size component. -/
theorem sorted_sortDesc :
    ∀ l : List (String × Nat),
      List.Sorted (fun a b : String × Nat => b.2 ≤ a.2) (sortDesc l)
  | [] => List.sorted_nil
  | x :: xs => sorted_insertDesc x (sortDesc xs) (sorted_sortDesc xs)

/-- Inserting commutes with filtering on any fixed size: the inserted
element only jumps over strictly larger entries, which a size filter never
sees together with it. -/
theorem filter_insertDesc (x : String × Nat) (s : Nat) :
    ∀ l : List (String × Nat),
      (insertDesc x l).filter (fun p => p.2 == s) =
        (x :: l).filter (fun p => p.2 == s)
  | [] => rfl
  | y :: ys => by
    by_cases h : y.2 ≤ x.2
    · simp [insertDesc, h]
    · have hlt : x.2 < y.2 := Nat.lt_of_not_le h
      by_cases px : x.2 = s
      · have py : (y.2 == s) = false := by
          apply beq_eq_false_iff_ne.mpr
          omega
        simp only [insertDesc, h, if_false, List.filter_cons, py,
          Bool.false_eq_true, if_false, filter_insertDesc x s ys]
      · have px' : (x.2 == s) = false := beq_eq_false_iff_ne.mpr px
        simp only [insertDesc, h, if_false, List.filter_cons,
          filter_insertDesc x s ys, px']
        simp [px']

/-- The sort is stable: entries of any fixed size keep their discovery
order. -/
theorem filter_sortDesc (s : Nat) :
    ∀ l : List (String × Nat),
      (sortDesc l).filter (fun p => p.2 == s) =
        l.filter (fun p => p.2 == s)
  | [] => rfl
  | x :: xs => by
    rw [sortDesc, filter_insertDesc x s (sortDesc xs)]
    simp only [List.filter_cons, filter_sortDesc s xs]

/-! ## Helper lemmas about lowercasing and suffix tests -/

/-- `Char.toLower` only moves the basic latin uppercase range (65-90) onto
97-122; any character below 97 — such as `'.'` (46) or `'/'` (47) — is
produced only by itself. -/
theorem char_toLower_eq_low (c d : Char) (hd : d.toNat < 97)
    (h : Char.toLower c = d) : c = d := by
  rw [show Char.toLower c =
    if c.toNat ≥ 65 ∧ c.toNat ≤ 90 then Char.ofNat (c.toNat + 32) else c
    from rfl] at h
  split at h
  · exfalso
    rename_i hc
    obtain ⟨hc1, hc2⟩ := hc
    have hv : (c.toNat + 32).isValidChar := Or.inl (by omega)
    have hval : (Char.ofNat (c.toNat + 32)).toNat = c.toNat + 32 := by
      rw [Char.ofNat, dif_pos hv]
      rfl
    rw [h] at hval
    omega
  · exact h

/-- Lowercasing introduces no separator. -/
theorem slash_not_mem_map_toLower (l : List Char) (h : '/' ∉ l) :
    '/' ∉ l.map Char.toLower := by
  intro hmem
  obtain ⟨c, hc, hce⟩ := List.mem_map.mp hmem
  exact h (char_toLower_eq_low c '/' (by decide) hce ▸ hc)

/-- A separator-free suffix reaches at most back to the last separator. -/
theorem suffix_append_slash (ext m t : List Char) (he : '/' ∉ ext) :
    ext <:+ (t ++ '/' :: m) ↔ ext <:+ m := by
  constructor
  · intro h
    induction t with
    | nil =>
      rcases List.suffix_cons_iff.mp h with h1 | h1
      · exact absurd (h1 ▸ List.mem_cons_self '/' m) he
      · exact h1
    | cons c t ih =>
      rcases List.suffix_cons_iff.mp (by simpa using h) with h1 | h1
      · exact absurd
          (h1 ▸ List.mem_cons_of_mem c
            (List.mem_append_right t (List.mem_cons_self '/' m))) he
      · exact ih h1
  · intro h
    exact (h.trans (List.suffix_cons '/' m)).trans
      (List.suffix_append t ('/' :: m))

/-- `posixpath.join(d, n)` for a clean entry name `n` is either `n` itself
(`d` empty) or ends in `'/' :: n`. -/
theorem pathJoin_cases (d n : List Char) (hn1 : n ≠ []) (hn2 : '/' ∉ n) :
    pathJoinL d n = n ∨ ∃ t, pathJoinL d n = t ++ '/' :: n := by
  have hhead : ¬ n.head? = some '/' := by
    cases n with
    | nil => simp
    | cons x xs =>
      simp only [List.head?_cons, Option.some.injEq]
      intro hx
      exact hn2 (hx ▸ List.mem_cons_self x xs)
  unfold pathJoinL
  rw [if_neg hhead]
  by_cases hd : d = [] ∨ d.getLast? = some '/'
  · rw [if_pos hd]
    rcases hd with rfl | hlast
    · exact Or.inl rfl
    · right
      have hdne : d ≠ [] := by rintro rfl; simp at hlast
      have hgl : d.getLast hdne = '/' := by
        rw [List.getLast?_eq_getLast d hdne] at hlast
        exact Option.some.inj hlast
      refine ⟨d.dropLast, ?_⟩
      conv_lhs => rw [← List.dropLast_append_getLast hdne, hgl]
      rw [List.append_assoc]
      rfl
  · rw [if_neg hd]
    exact Or.inr ⟨d, rfl⟩

/-- The lowercased-full-path suffix test of `checkfolder`'s top level
agrees with the lowercased-name test whenever the extension contains no
separator. -/
theorem endsWith_join_eq (ext d n : List Char) (he : '/' ∉ ext)
    (hn1 : n ≠ []) (hn2 : '/' ∉ n) :
    ext.isSuffixOf ((pathJoinL d n).map Char.toLower) =
      ext.isSuffixOf (n.map Char.toLower) := by
  rcases pathJoin_cases d n hn1 hn2 with hj | ⟨t, hj⟩
  · rw [hj]
  · rw [hj]
    apply Bool.eq_iff_iff.mpr
    simp only [List.isSuffixOf_iff_suffix, List.map_append, List.map_cons]
    have : Char.toLower '/' = '/' := by decide
    rw [this]
    exact suffix_append_slash ext (n.map Char.toLower) (t.map Char.toLower) he

/-- The head of `dropWhile p l` fails `p`. -/
theorem head_dropWhile_false (p : Char → Bool) :
    ∀ (l : List Char) (a : Char), (l.dropWhile p).head? = some a → p a = false
  | [], a => by simp
  | x :: xs, a => by
    by_cases hx : p x
    · rw [List.dropWhile_cons_of_pos hx]
      exact head_dropWhile_false p xs a
    · rw [List.dropWhile_cons_of_neg hx, List.head?_cons]
      intro h
      rw [← Option.some.inj h]
      exact Bool.not_eq_true _ ▸ hx

/-! ## Helper lemmas about POSIX path components -/

/-- Splitting never yields the empty list of chunks. -/
theorem splitOnChar_ne_nil (c : Char) : ∀ l : List Char, splitOnChar c l ≠ []
  | [] => by simp [splitOnChar]
  | x :: xs => by
    by_cases hx : x = c <;> simp [splitOnChar, hx]

/-- Splitting at an explicit separator splits the concatenation. -/
theorem splitOnChar_append_sep (c : Char) :
    ∀ a b : List Char,
      splitOnChar c (a ++ c :: b) = splitOnChar c a ++ splitOnChar c b
  | [], b => by simp [splitOnChar]
  | x :: a, b => by
    by_cases hx : x = c
    · simp [splitOnChar, hx, splitOnChar_append_sep c a b]
    · cases heq : splitOnChar c a with
      | nil => exact absurd heq (splitOnChar_ne_nil c a)
      | cons h t =>
        simp [splitOnChar, hx, splitOnChar_append_sep c a b, heq]

/-- A separator-free list is a single chunk. -/
theorem splitOnChar_of_not_mem (c : Char) :
    ∀ l : List Char, c ∉ l → splitOnChar c l = [l]
  | [], _ => rfl
  | x :: xs, h => by
    have hx : ¬ x = c := fun hc => h (hc ▸ List.mem_cons_self x xs)
    have hxs : c ∉ xs := fun hc => h (List.mem_cons_of_mem x hc)
    simp [splitOnChar, hx, splitOnChar_of_not_mem c xs hxs]

/-- Path components of a concatenation through a separator. -/
theorem partsL_append_sep (a b : List Char) :
    partsL (a ++ '/' :: b) = partsL a ++ partsL b := by
  rw [partsL, partsL, partsL, splitOnChar_append_sep, List.filter_append]

/-- A nonempty separator-free list is its own single component. -/
theorem partsL_of_clean (l : List Char) (h1 : l ≠ []) (h2 : '/' ∉ l) :
    partsL l = [l] := by
  rw [partsL, splitOnChar_of_not_mem '/' l h2]
  simp [h1]

/-- The empty path has no components. -/
theorem partsL_nil : partsL [] = [] := by
  simp [partsL, splitOnChar]

/-- Joining a clean component appends one path component. -/
theorem partsL_pathJoin (p n : List Char) (hn1 : n ≠ []) (hn2 : '/' ∉ n) :
    partsL (pathJoinL p n) = partsL p ++ [n] := by
  have hhead : ¬ n.head? = some '/' := by
    cases n with
    | nil => simp
    | cons x xs =>
      simp only [List.head?_cons, Option.some.injEq]
      intro hx
      exact hn2 (hx ▸ List.mem_cons_self x xs)
  unfold pathJoinL
  rw [if_neg hhead]
  by_cases hd : p = [] ∨ p.getLast? = some '/'
  · rw [if_pos hd]
    rcases hd with rfl | hlast
    · rw [List.nil_append, partsL_of_clean n hn1 hn2]
      rfl
    · have hdne : p ≠ [] := by rintro rfl; simp at hlast
      have hgl : p.getLast hdne = '/' := by
        rw [List.getLast?_eq_getLast p hdne] at hlast
        exact Option.some.inj hlast
      have hp : p = p.dropLast ++ ['/'] := by
        conv_lhs => rw [← List.dropLast_append_getLast hdne, hgl]
      rw [hp, List.append_assoc]
      show partsL (p.dropLast ++ '/' :: n) = partsL (p.dropLast ++ '/' :: []) ++ [n]
      rw [partsL_append_sep, partsL_append_sep, partsL_of_clean n hn1 hn2,
        partsL_nil, List.append_nil]
  · rw [if_neg hd, partsL_append_sep, partsL_of_clean n hn1 hn2]

/-- The walked full path appends all (clean) components. -/
theorem partsL_walk :
    ∀ (comps : List (List Char)) (p : List Char),
      (∀ x ∈ comps, cleanComp x) →
      partsL (walkFullPath p comps) = partsL p ++ comps
  | [], p, _ => by simp [walkFullPath]
  | n :: comps, p, h => by
    obtain ⟨hn1, hn2, -, -⟩ := h n (List.mem_cons_self n comps)
    have ih := partsL_walk comps (pathJoinL p n)
      (fun x hx => h x (List.mem_cons_of_mem n hx))
    show partsL (walkFullPath (pathJoinL p n) comps) = _
    rw [ih, partsL_pathJoin p n hn1 hn2, List.append_assoc]
    rfl

/-- Appending a final component to an interleaving. -/
theorem intercalateSlash_concat :
    ∀ (init : List (List Char)) (last : List Char),
      intercalateSlash (init ++ [last]) =
        if init = [] then last else intercalateSlash init ++ '/' :: last
  | [], last => rfl
  | [c], last => rfl
  | c :: d :: rest, last => by
    have ih := intercalateSlash_concat (d :: rest) last
    rw [if_neg (by simp)] at ih
    show c ++ '/' :: intercalateSlash ((d :: rest) ++ [last]) = _
    rw [ih, if_neg (by simp), intercalateSlash, List.append_assoc]
    rfl

/-- Components of an interleaving of clean components. -/
theorem partsL_intercalate :
    ∀ l : List (List Char), (∀ x ∈ l, cleanComp x) →
      partsL (intercalateSlash l) = l
  | [], _ => rfl
  | [c], h => by
    obtain ⟨h1, h2, -, -⟩ := h c (List.mem_cons_self c [])
    exact partsL_of_clean c h1 h2
  | c :: d :: rest, h => by
    obtain ⟨h1, h2, -, -⟩ := h c (List.mem_cons_self c (d :: rest))
    rw [intercalateSlash, partsL_append_sep, partsL_of_clean c h1 h2,
      partsL_intercalate (d :: rest) (fun x hx => h x (List.mem_cons_of_mem c hx))]
    rfl

/-- Components of a normalized absolute path. -/
theorem partsL_absPathOf (l : List (List Char)) (h : ∀ x ∈ l, cleanComp x) :
    partsL (absPathOf l) = l := by
  show partsL ([] ++ '/' :: intercalateSlash l) = l
  rw [partsL_append_sep, partsL_intercalate l h]
  rfl

/-- The longest common prefix of a list with an extension of itself. -/
theorem commonPrefixLen_self_append :
    ∀ l r : List (List Char), commonPrefixLen l (l ++ r) = l.length
  | [], r => by cases r <;> rfl
  | a :: l, r => by
    simp [commonPrefixLen, commonPrefixLen_self_append l r, Nat.add_comm]

/-- `dropWhile` passes over a prefix it entirely accepts. -/
theorem dropWhile_append_of_all (p : Char → Bool) :
    ∀ a b : List Char, (∀ x ∈ a, p x = true) →
      (a ++ b).dropWhile p = b.dropWhile p
  | [], b, _ => rfl
  | x :: a, b, h => by
    rw [List.cons_append,
      List.dropWhile_cons_of_pos (h x (List.mem_cons_self x a))]
    exact dropWhile_append_of_all p a b fun y hy => h y (List.mem_cons_of_mem x hy)

/-- The interleaving of clean components ends (and its reverse starts) in a
character that is not the separator. -/
theorem intercalate_reverse_head (init : List (List Char)) (hne : init ≠ [])
    (h : ∀ x ∈ init, cleanComp x) :
    ∃ ch t, (intercalateSlash init).reverse = ch :: t ∧ ch ≠ '/' := by
  rcases init.eq_nil_or_concat with rfl | ⟨pre, lastc, hinit⟩
  · exact absurd rfl hne
  · rw [List.concat_eq_append] at hinit
    subst hinit
    obtain ⟨hl1, hl2, -, -⟩ := h lastc (List.mem_append_right pre
      (List.mem_cons_self lastc []))
    have hrev : ∃ ch t0, lastc.reverse = ch :: t0 ∧ ch ≠ '/' := by
      cases hr : lastc.reverse with
      | nil => exact absurd (by simpa using congrArg List.reverse hr) hl1
      | cons ch t0 =>
        refine ⟨ch, t0, rfl, ?_⟩
        intro hc
        apply hl2
        rw [← List.mem_reverse, hr, hc]
        exact List.mem_cons_self '/' t0
    obtain ⟨ch, t0, hr, hch⟩ := hrev
    rw [intercalateSlash_concat]
    by_cases hp : pre = []
    · rw [if_pos hp]
      exact ⟨ch, t0, hr, hch⟩
    · rw [if_neg hp, List.reverse_append, List.reverse_cons]
      refine ⟨ch, t0 ++ '/' :: (intercalateSlash pre).reverse, ?_, hch⟩
      rw [hr]
      simp

/-- `posixpath.dirname` of a clean absolute path drops the final
component (yielding the root for a single-component path). -/
theorem dirnameL_absPathOf (init : List (List Char)) (last : List Char)
    (h : ∀ x ∈ init ++ [last], cleanComp x) :
    dirnameL (absPathOf (init ++ [last])) =
      if init = [] then ['/'] else absPathOf init := by
  obtain ⟨hl1, hl2, -, -⟩ := h last (List.mem_append_right init
    (List.mem_cons_self last []))
  have hlrev : ∀ x ∈ last.reverse, (decide ¬ x = '/') = true := by
    intro x hx
    rw [decide_eq_true_eq]
    intro hc
    exact hl2 (hc ▸ List.mem_reverse.mp hx)
  unfold absPathOf
  rw [intercalateSlash_concat]
  by_cases hp : init = []
  · rw [if_pos hp, if_pos hp]
    have hh : dirnameHead ('/' :: last) = ['/'] := by
      unfold dirnameHead
      rw [List.reverse_cons, dropWhile_append_of_all _ last.reverse ['/'] hlrev]
      rfl
    rw [dirnameL, hh]
    rw [if_neg (by simp)]
  · rw [if_neg hp, if_neg hp]
    obtain ⟨ch, t, hrev, hch⟩ :=
      intercalate_reverse_head init hp (fun x hx => h x (List.mem_append_left _ hx))
    have hrevfull : ('/' :: (intercalateSlash init ++ '/' :: last)).reverse =
        last.reverse ++ '/' :: ((intercalateSlash init).reverse ++ ['/']) := by
      simp
    have hh : dirnameHead ('/' :: (intercalateSlash init ++ '/' :: last)) =
        '/' :: (intercalateSlash init ++ ['/']) := by
      unfold dirnameHead
      rw [hrevfull, dropWhile_append_of_all _ last.reverse _ hlrev,
        List.dropWhile_cons_of_neg (by simp)]
      simp
    have hany : ('/' :: (intercalateSlash init ++ ['/'])).any
        (fun x => x ≠ '/') = true := by
      rw [List.any_eq_true]
      have hchmem : ch ∈ intercalateSlash init := by
        rw [← List.mem_reverse, hrev]
        exact List.mem_cons_self ch t
      exact ⟨ch, by simp [hchmem], by simpa using hch⟩
    have hrs : rstripSlash ('/' :: (intercalateSlash init ++ ['/'])) =
        '/' :: intercalateSlash init := by
      unfold rstripSlash
      have hr2 : ('/' :: (intercalateSlash init ++ ['/'])).reverse =
          '/' :: ((intercalateSlash init).reverse ++ ['/']) := by
        simp
      rw [hr2, List.dropWhile_cons_of_pos (by simp), hrev, List.cons_append,
        List.dropWhile_cons_of_neg (by simpa using hch), ← List.cons_append,
        ← hrev]
      simp
    rw [dirnameL, hh, if_pos ⟨by simp, hany⟩, hrs]

/-- Replacing a character by itself is the identity
(`relative_path.replace(os.sep, '/')` with `os.sep = '/'`). -/
theorem replaceChar_self (a : Char) (p : List Char) : replaceChar a a p = p := by
  have : (fun c => if c = a then a else c) = fun c : Char => c := by
    funext c
    by_cases h : c = a <;> simp [h]
  rw [replaceChar, this, List.map_id']

/-! ## The claims -/

/-- C1: for every local file considered by the upload sync pass (i.e. not
excluded by the extension filter) and readable: if its key is absent from
the remote snapshot, the decision is Upload (an upload call is issued); if
the key is present and the stored fingerprint — with surrounding double
quotes stripped, exactly `s3_objects[s3_key].strip('"')` — equals the
computed digest byte for byte, the decision is Skip and no upload call is
issued; if it is present and differs, the decision is Upload.
(`processFile` is exactly what the pass runs for each non-excluded file,
see `uploadLoop`.) -/
theorem c1_sync_decision (md5 : List Nat → String) (ig : List String)
    (snap store : Store) (f : LocalFile)
    (hx : nameExcluded ig f.name = false) (hr : f.readErr = false) :
    (lookupStore snap f.key = none →
      SyncEvent.uploadCall f.key ∈ (processFile md5 snap store f).events)
    ∧ (∀ v, lookupStore snap f.key = some (some v) →
        stripQuotes v = md5 f.content →
          SyncEvent.skip f.key ∈ (processFile md5 snap store f).events
          ∧ SyncEvent.uploadCall f.key ∉ (processFile md5 snap store f).events)
    ∧ (∀ v, lookupStore snap f.key = some (some v) →
        stripQuotes v ≠ md5 f.content →
          SyncEvent.uploadCall f.key ∈ (processFile md5 snap store f).events) := by
  refine ⟨fun h => ?_, fun v h hm => ?_, fun v h hm => ?_⟩
  · by_cases hu : f.upErr <;> simp [processFile, hr, h, hu]
  · simp [processFile, hr, h, hm]
  · by_cases hu : f.upErr <;> simp [processFile, hr, h, hm, hu]

/-- Witness for C1: concrete new file → upload call issued. -/
theorem c1_sync_decision_witness :
    SyncEvent.uploadCall "project/a.txt" ∈ (processFile md5c [] [] fileA).events :=
  (c1_sync_decision md5c [] [] [] fileA (by decide) (by decide)).1 (by decide)

/-- C4 (amended): per-file errors DO abort the batch.  The loop body has no
exception handler, so once the entries before `f` finish cleanly and `f`
fails (unreadable file or store/network error), the run ends with `f`'s
exception: the events are exactly those of the prefix plus `f`'s own, the
entries after `f` are never processed, and no failures summary exists. -/
theorem c4_first_error_aborts (md5 : List Nat → String) (ig : List String)
    (snap store : Store) (pre post : List LocalFile) (f : LocalFile)
    (hpre : (uploadLoop md5 ig snap store pre).err = none)
    (hx : nameExcluded ig f.name = false)
    (hfail : (processFile md5 snap (uploadLoop md5 ig snap store pre).store f).err
      ≠ none) :
    uploadLoop md5 ig snap store (pre ++ f :: post) =
      ⟨(uploadLoop md5 ig snap store pre).events ++
          (processFile md5 snap (uploadLoop md5 ig snap store pre).store f).events,
        (processFile md5 snap (uploadLoop md5 ig snap store pre).store f).store,
        (processFile md5 snap (uploadLoop md5 ig snap store pre).store f).err⟩
    ∧ (uploadLoop md5 ig snap store (pre ++ f :: post)).err ≠ none := by
  obtain ⟨e, he⟩ := Option.ne_none_iff_exists'.mp hfail
  rw [uploadLoop_append_of_ok md5 ig snap pre store hpre (f :: post),
    uploadLoop_cons_err md5 ig snap (uploadLoop md5 ig snap store pre).store
      f post e hx he, he]
  exact ⟨rfl, by simp⟩

/-- Counterexample for C4 as stated: with the unreadable `fileBad` first in
the plan, the run aborts with the propagated `IOError`; the new file
`fileA` that follows is never processed (it would have produced an upload
call, as the last conjunct shows) and nothing records the failure. -/
theorem c4_counterexample :
    (uploadLoop md5c [] [] [] [fileBad, fileA]).err = some "IOError"
    ∧ SyncEvent.uploadCall "project/a.txt" ∉
        (uploadLoop md5c [] [] [] [fileBad, fileA]).events
    ∧ (uploadLoop md5c [] [] [] [fileA]).events =
        [SyncEvent.fingerprint "project/a.txt",
          SyncEvent.uploadCall "project/a.txt"] := by
  decide

/-- Witness for C4 (amended): concrete aborted batch. -/
theorem c4_first_error_aborts_witness :
    uploadLoop md5c [] [] [] [fileBad, fileA] =
      ⟨(processFile md5c [] [] fileBad).events,
        (processFile md5c [] [] fileBad).store,
        (processFile md5c [] [] fileBad).err⟩
    ∧ (uploadLoop md5c [] [] [] [fileBad, fileA]).err ≠ none :=
  c4_first_error_aborts md5c [] [] [] [] [fileA] fileBad rfl (by decide)
    (by decide)

/-- C5 (amended): the fingerprint is NOT lazy.  `local_md5 = get_md5(...)`
(line 146) runs before the membership test on line 147, so for every
non-excluded readable file the digest is computed first — the very first
recorded event — whether or not the key exists in the remote snapshot. -/
theorem c5_eager_fingerprint (md5 : List Nat → String) (ig : List String)
    (snap store : Store) (f : LocalFile)
    (hx : nameExcluded ig f.name = false) (hr : f.readErr = false) :
    (processFile md5 snap store f).events.head? =
      some (SyncEvent.fingerprint f.key) := by
  unfold processFile
  rw [hr]
  simp only [Bool.false_eq_true, if_false]
  rcases lookupStore snap f.key with - | - | v
  · by_cases hu : f.upErr <;> simp [hu]
  · rfl
  · by_cases hm : stripQuotes v = md5 f.content <;>
      by_cases hu : f.upErr <;> simp [hm, hu]

/-- Counterexample for C5 as stated: `fileA`'s key is absent from the
(empty) remote snapshot, yet its fingerprint is computed (the claim says
the decision for such a file is made without computing it). -/
theorem c5_counterexample :
    lookupStore [] "project/a.txt" = none
    ∧ SyncEvent.fingerprint "project/a.txt" ∈
        (processFile md5c [] [] fileA).events
    ∧ SyncEvent.uploadCall "project/a.txt" ∈
        (processFile md5c [] [] fileA).events := by
  decide

/-- Witness for C5 (amended): concrete eager fingerprint event. -/
theorem c5_eager_fingerprint_witness :
    (processFile md5c [] [] fileA).events.head? =
      some (SyncEvent.fingerprint "project/a.txt") :=
  c5_eager_fingerprint md5c [] [] [] fileA (by decide) (by decide)

/-- C6: the transfer configuration the executor applies to every upload.
The code sets `multipart_threshold = 1024 * 25` = 25600 bytes (25 KB),
although its own comment says 25 MB: the claimed
`multipartThresholdBytes = 25 MB` is false of the constructed
configuration, and e.g. a 1 MiB file — far below 25 MB — is executed as a
multipart transfer.  The chunk size really is 25 MiB, so a 30 MiB file is
still executed in exactly 2 parts, and the threshold boundary itself is
inclusive as claimed. -/
theorem c6_threshold_bug :
    get_transfer_config.multipart_threshold = 25600
    ∧ get_transfer_config.multipart_threshold ≠ 25 * 1024 * 1024
    ∧ isMultipart get_transfer_config (1024 * 1024) = true
    ∧ isMultipart get_transfer_config
        get_transfer_config.multipart_threshold = true
    ∧ isMultipart get_transfer_config
        (get_transfer_config.multipart_threshold - 1) = false
    ∧ multipartParts get_transfer_config (30 * 1024 * 1024) = 2 := by
  decide

/-- C9: with no bucket configured (`read_config()` returns `None`),
`upload` echoes a message and returns normally: no remote listing, no
walk, no fingerprinting, no upload call, and the store is unchanged. -/
theorem c9_unconfigured_returns (md5 : List Nat → String)
    (igRaw : List String) (store : Store) (files : List LocalFile) :
    uploadCmd md5 none igRaw store files =
      ⟨[SyncEvent.echo "No configuration found. Please run 'luna configure'."],
        store, none⟩ :=
  rfl

/-- C10: if the remote snapshot maps a considered file's key to `None`
(object present but without `file-md5` metadata), the comparison
`s3_objects[s3_key].strip('"')` raises `AttributeError` — reachable, and
the file is neither classified as changed nor uploaded. -/
theorem c10_none_metadata_raises (md5 : List Nat → String) (ig : List String)
    (snap store : Store) (f : LocalFile)
    (hx : nameExcluded ig f.name = false) (hr : f.readErr = false)
    (hsnap : lookupStore snap f.key = some none) :
    (processFile md5 snap store f).err = some "AttributeError"
    ∧ SyncEvent.uploadCall f.key ∉ (processFile md5 snap store f).events
    ∧ (processFile md5 snap store f).store = store := by
  refine ⟨?_, ?_, ?_⟩ <;> simp [processFile, hr, hsnap]

/-- Witness for C10: concrete snapshot entry without metadata. -/
theorem c10_none_metadata_raises_witness :
    (processFile md5c [("project/a.txt", none)] [] fileA).err =
        some "AttributeError"
    ∧ SyncEvent.uploadCall "project/a.txt" ∉
        (processFile md5c [("project/a.txt", none)] [] fileA).events
    ∧ (processFile md5c [("project/a.txt", none)] [] fileA).store = [] :=
  c10_none_metadata_raises md5c [] [("project/a.txt", none)] [] fileA
    (by decide) (by decide) (by decide)

/-- C3: round-trip idempotence.  If a configured run over `files1` finishes
without error (each non-excluded file was uploaded with its digest attached
as `file-md5` metadata, or skipped because the snapshot already matched),
then a second run against the resulting remote state issues zero network
upload calls for any file `f` whose bytes are unchanged.  The keys are
assumed pairwise distinct (the walk produces distinct paths, hence distinct
relative keys), and MD5 hex digests contain no double quote, so stripping
quotes from a digest is the identity. -/
theorem c3_idempotence (md5 : List Nat → String) (b : String)
    (igRaw : List String) (store0 : Store) (files1 files2 : List LocalFile)
    (f : LocalFile)
    (hb : b ≠ "")
    (hnd1 : (files1.map LocalFile.key).Nodup)
    (hnd2 : (files2.map LocalFile.key).Nodup)
    (hmd5 : ∀ c, stripQuotes (md5 c) = md5 c)
    (h1 : (uploadCmd md5 (some b) igRaw store0 files1).err = none)
    (hf1 : f ∈ files1) (hf2 : f ∈ files2)
    (hx : nameExcluded (normalizeIgnore igRaw) f.name = false) :
    SyncEvent.uploadCall f.key ∉
      (uploadCmd md5 (some b) igRaw
        (uploadCmd md5 (some b) igRaw store0 files1).store files2).events := by
  have ht : pyTruthy (some b) = true := by simp [pyTruthy, hb]
  have hcmd : ∀ (st : Store) (fs : List LocalFile),
      uploadCmd md5 (some b) igRaw st fs =
        ⟨SyncEvent.listObjects :: SyncEvent.walk ::
            (uploadLoop md5 (normalizeIgnore igRaw) st st fs).events,
          (uploadLoop md5 (normalizeIgnore igRaw) st st fs).store,
          (uploadLoop md5 (normalizeIgnore igRaw) st st fs).err⟩ := by
    intro st fs
    simp [uploadCmd, ht]
  rw [hcmd] at h1
  rw [hcmd, hcmd]
  set ig := normalizeIgnore igRaw
  set S1 := (uploadLoop md5 ig store0 store0 files1).store with hS1
  -- after run 1, the remote entry for f matches its digest
  have hmatch := uploadLoop_ok_store md5 ig store0 hmd5 files1 store0 h1 hnd1
    (fun _ _ _ => rfl) f hf1 hx
  rw [← hS1] at hmatch
  obtain ⟨s, hs, hsm⟩ := hmatch
  -- run 2 never uploads f.key
  have hnoup := uploadLoop_no_upload md5 ig S1 f.key files2 S1 ?_
  · simp only [List.mem_cons]
    rintro (hc | hc | hc)
    · exact SyncEvent.noConfusion hc
    · exact SyncEvent.noConfusion hc
    · exact hnoup hc
  · intro g hg hk
    right; right
    have hgf : g = f :=
      List.inj_on_of_nodup_map hnd2 hg hf2 hk
    subst hgf
    exact ⟨s, hk ▸ hs, hsm⟩

/-- C2 (amended): for every folder path given WITHOUT a trailing separator
— written here as the normalized absolute path with components
`init ++ [rootName]` — and every file reached by the walk through clean
components `sub` and name `fname`, the computed S3 key is exactly the
forward-slash interleaving `rootName/(sub.../)fname`: its components are
`rootName :: sub ++ [fname]`, so the first segment is the upload root's own
name.  (A trailing separator breaks this: see the counterexample.) -/
theorem c2_relative_key (init sub : List (List Char))
    (rootName fname : List Char)
    (hclean : ∀ c ∈ (init ++ [rootName]) ++ (sub ++ [fname]), cleanComp c) :
    s3KeyOf (absPathOf (init ++ [rootName]))
        (walkFullPath (absPathOf (init ++ [rootName])) (sub ++ [fname])) =
      intercalateSlash (rootName :: (sub ++ [fname]))
    ∧ partsL (s3KeyOf (absPathOf (init ++ [rootName]))
        (walkFullPath (absPathOf (init ++ [rootName])) (sub ++ [fname]))) =
      rootName :: (sub ++ [fname]) := by
  have hcf : ∀ c ∈ init ++ [rootName], cleanComp c :=
    fun c hc => hclean c (List.mem_append_left _ hc)
  have hcs : ∀ c ∈ sub ++ [fname], cleanComp c :=
    fun c hc => hclean c (List.mem_append_right _ hc)
  have hck : ∀ c ∈ rootName :: (sub ++ [fname]), cleanComp c := by
    intro c hc
    rcases List.mem_cons.mp hc with rfl | hc2
    · exact hcf c (List.mem_append_right _ (List.mem_cons_self c []))
    · exact hcs c hc2
  have hfull : partsL (walkFullPath (absPathOf (init ++ [rootName]))
      (sub ++ [fname])) = (init ++ [rootName]) ++ (sub ++ [fname]) := by
    rw [partsL_walk (sub ++ [fname]) _ hcs, partsL_absPathOf _ hcf]
  have hdir : partsL (dirnameL (absPathOf (init ++ [rootName]))) = init := by
    rw [dirnameL_absPathOf init rootName hcf]
    by_cases hp : init = []
    · rw [if_pos hp, hp]
      simp [partsL, splitOnChar]
    · rw [if_neg hp]
      exact partsL_absPathOf init (fun c hc => hcf c (List.mem_append_left _ hc))
  have hrel : relpathRel
      (walkFullPath (absPathOf (init ++ [rootName])) (sub ++ [fname]))
      (dirnameL (absPathOf (init ++ [rootName]))) =
      rootName :: (sub ++ [fname]) := by
    unfold relpathRel
    rw [hdir, hfull]
    have hassoc : (init ++ [rootName]) ++ (sub ++ [fname]) =
        init ++ (rootName :: (sub ++ [fname])) := by simp
    rw [hassoc, commonPrefixLen_self_append, Nat.sub_self,
      List.replicate_zero, List.nil_append, List.drop_left]
  have hkey : s3KeyOf (absPathOf (init ++ [rootName]))
      (walkFullPath (absPathOf (init ++ [rootName])) (sub ++ [fname])) =
      intercalateSlash (rootName :: (sub ++ [fname])) := by
    unfold s3KeyOf
    rw [replaceChar_self, relpathL, hrel, if_neg (by simp)]
  exact ⟨hkey, by rw [hkey]; exact partsL_intercalate _ hck⟩

/-- Counterexample for C2 as stated: with the accepted argument
`folder_path = "/a/b/"` (trailing separator), `os.path.dirname` returns
`"/a/b"` — the root itself, not its parent — so the key of the walked file
`c.txt` is just `"c.txt"`: it is not prefixed by the root directory's own
name `"b"`. -/
theorem c2_counterexample :
    s3KeyOf "/a/b/".data (walkFullPath "/a/b/".data ["c.txt".data]) =
      "c.txt".data
    ∧ (partsL (s3KeyOf "/a/b/".data
        (walkFullPath "/a/b/".data ["c.txt".data]))).head? = some "c.txt".data
    ∧ "c.txt".data ≠ "b".data
    ∧ s3KeyOf "/a/b".data (walkFullPath "/a/b".data ["c.txt".data]) =
      "b/c.txt".data := by
  decide

/-- Witness for C2 (amended): `/a/b` with file `c.txt` yields key
`b/c.txt`. -/
theorem c2_relative_key_witness :
    s3KeyOf (absPathOf ([['a']] ++ [['b']]))
        (walkFullPath (absPathOf ([['a']] ++ [['b']])) ([] ++ ["c.txt".data])) =
      intercalateSlash (['b'] :: ([] ++ ["c.txt".data]))
    ∧ partsL (s3KeyOf (absPathOf ([['a']] ++ [['b']]))
        (walkFullPath (absPathOf ([['a']] ++ [['b']])) ([] ++ ["c.txt".data]))) =
      ['b'] :: ([] ++ ["c.txt".data]) :=
  c2_relative_key [['a']] [] ['b'] "c.txt".data (by decide)

/-- C7 (amended): each user-supplied extension is normalized to lowercase
with exactly one leading `'.'`, and a file is excluded iff its lowercased
name ends with some normalized extension — with one caveat the claim
overlooks: at `checkfolder`'s top level the test is applied to the
lowercased FULL PATH (line 95), not to the name.  The two tests coincide
for every extension free of the path separator (first conjunct); `get_size`
and both `upload` loops apply the name test (`nameExcluded`) at every depth
by definition. -/
theorem c7_extension_filter (raw : List String) (dir name : String)
    (hraw : ∀ e ∈ raw, '/' ∉ e.data)
    (hn1 : name.data ≠ []) (hn2 : '/' ∉ name.data) :
    pathExcludedS (normalizeIgnore raw) (pathJoinS dir name) =
      nameExcluded (normalizeIgnore raw) name
    ∧ (∀ e ∈ raw,
        (normalizeExt e).data =
          '.' :: (e.data.dropWhile (fun c => c = '.')).map Char.toLower
        ∧ ((normalizeExt e).data.tail).head? ≠ some '.') := by
  constructor
  · have hpoint : ∀ ext ∈ normalizeIgnore raw,
        endsWithS (lowerS (pathJoinS dir name)) ext =
          endsWithS (lowerS name) ext := by
      intro ext hm
      obtain ⟨e, he, rfl⟩ := List.mem_map.mp hm
      have hdw : '/' ∉ e.data.dropWhile (fun c => c = '.') :=
        fun hmem => hraw e he ((List.dropWhile_sublist _).subset hmem)
      have hmap := slash_not_mem_map_toLower _ hdw
      have hee : '/' ∉ (normalizeExt e).data := by
        intro hsl
        have hsl' : '/' ∈
            '.' :: (e.data.dropWhile (fun c => c = '.')).map Char.toLower := hsl
        rcases List.mem_cons.mp hsl' with h1 | h1
        · exact absurd h1 (by decide)
        · exact hmap h1
      exact endsWith_join_eq (normalizeExt e).data dir.data name.data hee hn1 hn2
    apply Bool.eq_iff_iff.mpr
    simp only [pathExcludedS, nameExcluded, List.any_eq_true]
    constructor
    · rintro ⟨ext, hm, hp⟩
      exact ⟨ext, hm, by rw [← hpoint ext hm]; exact hp⟩
    · rintro ⟨ext, hm, hp⟩
      exact ⟨ext, hm, by rw [hpoint ext hm]; exact hp⟩
  · intro e he
    refine ⟨rfl, ?_⟩
    intro hh
    have hh2 : ((e.data.dropWhile (fun c => c = '.')).map Char.toLower).head? =
        some '.' := hh
    rw [List.head?_map] at hh2
    obtain ⟨a, ha, hae⟩ := Option.map_eq_some'.mp hh2
    have ha' : a = '.' := char_toLower_eq_low a '.' (by decide) hae
    have hfalse := head_dropWhile_false (fun c => c = '.') _ a ha
    rw [ha'] at hfalse
    simp at hfalse

/-- Counterexample for C7 as stated: the extension `"/gz"` (accepted by the
CLI) normalizes to `"./gz"`; in folder `"x."` the top-level file `"gz"` is
excluded by `checkfolder` (full-path test) although its lowercased name
does not end with any filter extension — and `get_size`, at depth ≥ 1,
would count the very same name.  So exclusion is not equivalent to the
claimed name test, and the predicate differs between depths. -/
theorem c7_counterexample :
    pathExcludedS (normalizeIgnore ["/gz"]) (pathJoinS "x." "gz") = true
    ∧ nameExcluded (normalizeIgnore ["/gz"]) "gz" = false
    ∧ entryRow (normalizeIgnore ["/gz"]) "x." (FSNode.file "gz" 5) = none
    ∧ get_size (normalizeIgnore ["/gz"]) (FSNode.file "gz" 5) = 5 := by
  decide

/-- Witness for C7 (amended): a separator-free extension filters the same
way by full path and by name. -/
theorem c7_extension_filter_witness :
    pathExcludedS (normalizeIgnore ["LOG"]) (pathJoinS "/var" "boot.log") =
      nameExcluded (normalizeIgnore ["LOG"]) "boot.log"
    ∧ (∀ e ∈ ["LOG"],
        (normalizeExt e).data =
          '.' :: (e.data.dropWhile (fun c => c = '.')).map Char.toLower
        ∧ ((normalizeExt e).data.tail).head? ≠ some '.') :=
  c7_extension_filter ["LOG"] "/var" "boot.log" (by decide) (by decide)
    (by decide)

/-- C8: the `(name, size)` rows `checkfolder` prints for the immediate
children of the root are sorted descending by size; entries of equal size
keep their discovery (`os.listdir`) order (Python's sort is stable, also
under `reverse=True`); directories are sized as the recursive sum of their
non-excluded contained files (`get_size`).  The last conjunct replays the
spec scenario: `logs/` with 300 bytes in 3 files and `data/` with 100
bytes, discovered in the order `data`, `logs`, print as
`[("logs", 300), ("data", 100)]`. -/
theorem c8_checkfolder_rows (igRaw : List String) (folderPath : String)
    (entries : List FSNode) :
    List.Sorted (fun a b : String × Nat => b.2 ≤ a.2)
        (checkfolderRows igRaw folderPath entries)
    ∧ (∀ s : Nat,
        (checkfolderRows igRaw folderPath entries).filter (fun p => p.2 == s) =
          (entries.filterMap
            (entryRow (normalizeIgnore igRaw) folderPath)).filter
              (fun p => p.2 == s))
    ∧ (∀ n cs, entryRow (normalizeIgnore igRaw) folderPath (FSNode.dir n cs) =
        some (n, get_size (normalizeIgnore igRaw) (FSNode.dir n cs)))
    ∧ checkfolderRows [] "/r"
        [FSNode.dir "data" [FSNode.file "f" 100],
          FSNode.dir "logs"
            [FSNode.file "g" 100, FSNode.file "h" 100, FSNode.file "i" 100]] =
      [("logs", 300), ("data", 100)] :=
  ⟨sorted_sortDesc _, fun s => filter_sortDesc s _, fun _ _ => rfl, by decide⟩

/-- Witness for C3: uploading `fileA` into an empty bucket, then re-running
with unchanged bytes, issues no second upload call. -/
theorem c3_idempotence_witness :
    SyncEvent.uploadCall "project/a.txt" ∉
      (uploadCmd md5c (some "bkt") []
        (uploadCmd md5c (some "bkt") [] [] [fileA]).store [fileA]).events :=
  c3_idempotence md5c "bkt" [] [] [fileA] [fileA] fileA (by decide) (by decide)
    (by decide)
    (fun _ => (by decide : stripQuotes "0cc175b9c0f1b6a831c399e269772661" =
      "0cc175b9c0f1b6a831c399e269772661"))
    (by decide) (by decide) (by decide) (by decide)

end Luna
